import Mathlib

/-!
Shallow embedding of the OpenHarmony SDK bootstrapper
(`cerbero/bootstrap/ohos.py`): archive discovery, component
classification, extraction, metadata reading and relocation of SDK
components into a version-keyed directory layout.

The filesystem is modelled explicitly: a path is a list of name
components (so `os.path.join(p, name)` is `p ++ [name]` and
`os.path.basename` is the last component; names are treated as atomic,
i.e. they contain no separator), and a filesystem state is a list of
existing directories plus an association list from file paths to file
contents.  The order of these lists models the (arbitrary but fixed)
order in which the operating system yields directory entries, which is
the order `glob` results arrive in.  File contents are stratified by how
the program can interpret them: opaque bytes, bytes that parse as a JSON
document, or bytes in an archive container format (with `none` standing
for a corrupt archive that makes extraction raise).  Operations that
Python reports through exceptions are modelled with `Except`;
environment-only faults (permissions, disk-full) are outside the model.
-/

namespace Ohos

/-- Filesystem path, as its list of name components from the root. -/
abbrev Path := List String

/-- Last path component, models `os.path.basename`. -/
def basename (p : Path) : String := p.getLastD ""

/-- Name that `glob` treats as hidden (leading dot). -/
def hidden (s : String) : Bool :=
  match s.data with
  | [] => false
  | c :: _ => c == '.'

/-- Models Python `str.lower()` (ASCII case folding suffices here). -/
def lower (s : String) : String := ⟨s.data.map Char.toLower⟩

/-- Models Python `str.endswith(suf)`. -/
def ends_with (s suf : String) : Bool := decide (suf.data <:+ s.data)

/-- Models Python `s.split(sep)[0]` for a one-character separator: the
longest leading run of `s` not containing `sep`. -/
def split_head (sep : Char) (s : String) : String :=
  ⟨s.data.takeWhile (fun c => c != sep)⟩

/-! ### JSON values (what `json.load` can produce) -/

mutual
inductive Json where
  | null : Json
  | bool (b : Bool) : Json
  | num (n : Int) : Json
  | str (s : String) : Json
  | arr (elems : JsonList) : Json
  | obj (fields : JsonFields) : Json

inductive JsonList where
  | nil : JsonList
  | cons (hd : Json) (tl : JsonList) : JsonList

inductive JsonFields where
  | nil : JsonFields
  | cons (key : String) (val : Json) (tl : JsonFields) : JsonFields
end

/-- Association lookup among a JSON object's fields. -/
def JsonFields.lookup : JsonFields → String → Option Json
  | .nil, _ => none
  | .cons k v rest, key => if k = key then some v else rest.lookup key

/-- Models Python `data.get(key)` on a parsed JSON document: `none` when
`data` is not a dict (`.get` raises, caught by the caller), when the key
is missing, or when the stored value is JSON `null` (which loads as
Python `None`). -/
def Json.get (j : Json) (key : String) : Option Json :=
  match j with
  | .obj fields =>
    match fields.lookup key with
    | some .null => none
    | some v => some v
    | none => none
  | _ => none

/-- Single quote character, used by Python `repr` of strings. -/
def sq : String := String.singleton (Char.ofNat 39)

/-- Left brace character, used by Python `str` of dicts. -/
def lbrace : String := String.singleton (Char.ofNat 123)

/-- Right brace character, used by Python `str` of dicts. -/
def rbrace : String := String.singleton (Char.ofNat 125)

mutual
/-- Renderer behind `pyStr`: for each value its `str(v)` and `repr(v)`
forms.  JSON numbers are modelled as integers; `repr` of nested strings
is modelled without escape processing. -/
def jrender : Json → String × String
  | .null => ("None", "None")
  | .bool true => ("True", "True")
  | .bool false => ("False", "False")
  | .num n => (toString n, toString n)
  | .str s => (s, sq ++ s ++ sq)
  | .arr xs => ("[" ++ jrenderList xs ++ "]", "[" ++ jrenderList xs ++ "]")
  | .obj fs => (lbrace ++ jrenderFields fs ++ rbrace, lbrace ++ jrenderFields fs ++ rbrace)

def jrenderList : JsonList → String
  | .nil => ""
  | .cons j .nil => (jrender j).2
  | .cons j rest => (jrender j).2 ++ ", " ++ jrenderList rest

def jrenderFields : JsonFields → String
  | .nil => ""
  | .cons k v .nil => sq ++ k ++ sq ++ ": " ++ (jrender v).2
  | .cons k v rest => sq ++ k ++ sq ++ ": " ++ (jrender v).2 ++ ", " ++ jrenderFields rest
end

/-- Models Python `str(v)` for a value loaded from JSON. -/
def pyStr (j : Json) : String := (jrender j).1

/-! ### File contents and the filesystem state -/

/-- Archive container formats the extractor can recognize. -/
inductive AFormat where
  | zipf : AFormat
  | targz : AFormat

/-- Content of a file, stratified by how the program can read it.  An
`archive` carries its format and either its entries (relative file path
and content pairs) or `none` for a corrupt archive whose extraction
raises. -/
inductive Content where
  | raw (s : String) : Content
  | jsonDoc (j : Json) : Content
  | archive (fmt : AFormat) (payload : Option (List (Path × Content))) : Content

/-- Filesystem state: existing directories and files.  List order models
the directory-listing order the operating system happens to produce. -/
structure FS where
  dirs : List Path
  files : List (Path × Content)

instance : Inhabited FS := ⟨⟨[], []⟩⟩

def FS.isDirB (fs : FS) (p : Path) : Bool := decide (p ∈ fs.dirs)

def FS.lookupFile (fs : FS) (p : Path) : Option Content :=
  (fs.files.find? (fun e => decide (e.1 = p))).map (·.2)

def FS.isFileB (fs : FS) (p : Path) : Bool :=
  fs.files.any (fun e => decide (e.1 = p))

/-- Models `os.path.exists` (a directory or a file is at `p`). -/
def FS.existsB (fs : FS) (p : Path) : Bool := fs.isDirB p || fs.isFileB p

/-- All entries (directories and files), in listing order. -/
def FS.entries (fs : FS) : List Path := fs.dirs ++ fs.files.map (·.1)

/-- Nonempty prefixes of a path: the chain of directories `os.makedirs`
ensures. -/
def path_inits (p : Path) : List Path :=
  (List.range p.length).map (fun i => p.take (i + 1))

/-- Models `os.makedirs(p, exist_ok=True)`: create every missing
ancestor directory of `p` and `p` itself. -/
def FS.makedirs (fs : FS) (p : Path) : FS :=
  ⟨fs.dirs ++ (path_inits p).filter (fun q => !(decide (q ∈ fs.dirs))), fs.files⟩

/-- Models opening `p` for writing and writing `c`: replace the content
at `p` in place if present, otherwise append a new file. -/
def FS.writeFile (fs : FS) (p : Path) (c : Content) : FS :=
  if fs.files.any (fun e => decide (e.1 = p)) then
    ⟨fs.dirs, fs.files.map (fun e => if e.1 = p then (p, c) else e)⟩
  else
    ⟨fs.dirs, fs.files ++ [(p, c)]⟩

/-- Remove `p` and everything below it. -/
def FS.removeSubtree (fs : FS) (p : Path) : FS :=
  ⟨fs.dirs.filter (fun d => !(decide (p <+: d))),
   fs.files.filter (fun e => !(decide (p <+: e.1)))⟩

/-- Models `shutil.rmtree(p)`: recursive delete of a directory; raises
when `p` is not a directory (e.g. a plain file). -/
def FS.rmtree (fs : FS) (p : Path) : Except Unit FS :=
  if fs.isDirB p then .ok (fs.removeSubtree p) else .error ()

/-- Models `shutil.rmtree(p, ignore_errors=True)`: recursive delete of a
directory, silently doing nothing when it cannot (nonexistent path or a
non-directory). -/
def FS.rmtree_ignore (fs : FS) (p : Path) : FS :=
  if fs.isDirB p then fs.removeSubtree p else fs

/-- Image of a path under moving the subtree at `src` to `dst`. -/
def relocate (src dst : Path) (q : Path) : Path :=
  if src <+: q then dst ++ q.drop src.length else q

/-- Models `shutil.move(src, dst)` when `dst` is an existing directory:
the tree at `src` ends up at `dst/basename(src)`; raises when `src` does
not exist. -/
def FS.move (fs : FS) (src dst : Path) : Except Unit FS :=
  if fs.existsB src then
    let d := dst ++ [basename src]
    .ok ⟨fs.dirs.map (relocate src d),
         fs.files.map (fun e => (relocate src d e.1, e.2))⟩
  else .error ()

/-! ### Definitions translated from `cerbero/bootstrap/ohos.py` -/

/-- Source constant `SDK_VERSION`. -/
def SDK_VERSION : String := "6.0"

/-- Source constant `WANTED_COMPONENTS`. -/
def WANTED_COMPONENTS : List String :=
  ["native", "toolchains", "ets", "js", "previewer"]

/-- Source `_platform_dir_name`: dictionary lookup with the platform
itself as the default. -/
def platform_dir_name (platform : String) : String :=
  if platform = "linux" then "linux"
  else if platform = "windows" then "windows"
  else if platform = "darwin" then "mac"
  else platform

/-- Name-level body of source `_comp_of`:
`base.split(".")[0].split("-")[0].split("_")[0]`. -/
def classify (base : String) : String :=
  split_head '_' (split_head '-' (split_head '.' base))

/-- Source `_comp_of(path)`: classify the basename of the path. -/
def comp_of (path : Path) : String := classify (basename path)

/-- Errors the relocation pipeline can raise. -/
inductive PipeError where
  | extractionFailed (archive : Path) : PipeError
  | rmtreeFailed (target : Path) : PipeError
  | moveFailed (src : Path) : PipeError

/-- Write the entries of an archive payload below `dest`, creating the
parent directories of every entry (models `extractall`). -/
def merge_entries (fs : FS) (dest : Path) : List (Path × Content) → FS
  | [] => fs
  | (rel, c) :: rest =>
    merge_entries ((fs.makedirs (dest ++ rel.dropLast)).writeFile (dest ++ rel) c) dest rest

/-- Zip branch of `_extract_archive`: models
`zipfile.ZipFile(path).extractall(dest)`; raises unless the path is a
file holding a well-formed zip archive. -/
def zip_extract (fs : FS) (archive_path dest_dir : Path) :
    Except (PipeError × FS) (FS × Bool) :=
  match fs.lookupFile archive_path with
  | some (.archive .zipf (some es)) => .ok (merge_entries fs dest_dir es, true)
  | _ => .error (.extractionFailed archive_path, fs)

/-- Tar branch of `_extract_archive`: models
`tarfile.open(path, "r:gz").extractall(dest)`. -/
def tar_extract (fs : FS) (archive_path dest_dir : Path) :
    Except (PipeError × FS) (FS × Bool) :=
  match fs.lookupFile archive_path with
  | some (.archive .targz (some es)) => .ok (merge_entries fs dest_dir es, true)
  | _ => .error (.extractionFailed archive_path, fs)

/-- Source `_extract_archive`: create the destination (line 58 runs
`makedirs` before the dispatch, which is the same as running it in every
branch), then dispatch on the lowercased suffix; unrecognized suffixes
extract nothing and return `false`. -/
def extract_archive (fs : FS) (archive_path dest_dir : Path) :
    Except (PipeError × FS) (FS × Bool) :=
  if ends_with (lower (basename archive_path)) ".zip" then
    zip_extract (fs.makedirs dest_dir) archive_path dest_dir
  else if ends_with (lower (basename archive_path)) ".tar.gz"
      || ends_with (lower (basename archive_path)) ".tgz" then
    tar_extract (fs.makedirs dest_dir) archive_path dest_dir
  else .ok (fs.makedirs dest_dir, false)

/-- Which archive container the extractor's suffix dispatch selects. -/
def recognized_format (name : String) : Option AFormat :=
  if ends_with (lower name) ".zip" then some .zipf
  else if ends_with (lower name) ".tar.gz" || ends_with (lower name) ".tgz" then
    some .targz
  else none

/-- Name of the metadata file. -/
def pkg_name : String := "oh-uni-package.json"

/-- Models `glob.glob(root/*/oh-uni-package.json)`: entries of `root` in
listing order, skipping hidden names, keeping the metadata path of those
that have a child named `oh-uni-package.json`. -/
def glob_child_pkg (fs : FS) (root : Path) : List Path :=
  (fs.entries.filter (fun d =>
      decide (root <+: d) && decide (d.length = root.length + 1)
        && !(hidden (basename d)))).filterMap
    (fun d => if fs.existsB (d ++ [pkg_name]) then some (d ++ [pkg_name]) else none)

/-- Locating step of `_read_api_version` (lines 73-79): the metadata
file at the root, else the first one-level-deeper glob candidate. -/
def locate_pkg (fs : FS) (root : Path) : Option Path :=
  let pkg := root ++ [pkg_name]
  if fs.isFileB pkg then some pkg
  else
    match glob_child_pkg fs root with
    | [] => none
    | c :: _ => some c

/-- Reading step of `_read_api_version` (lines 80-86): open and parse
the file, get `apiVersion`, coerce to string; every failure is caught
and becomes `none`. -/
def read_pkg_file (fs : FS) (p : Path) : Option String :=
  match fs.lookupFile p with
  | some (.jsonDoc data) =>
    match data.get "apiVersion" with
    | some v => some (pyStr v)
    | none => none
  | _ => none

/-- Source `_read_api_version`. -/
def read_api_version (fs : FS) (component_root : Path) : Option String :=
  match locate_pkg fs component_root with
  | none => none
  | some p => read_pkg_file fs p

/-- Models one `glob.glob(root/**/*suf, recursive=True)` call: entries
under `root` at any depth whose relative path has no hidden component
and whose final name ends (case-sensitively) with `suf`. -/
def glob_rec (fs : FS) (root : Path) (suf : String) : List Path :=
  fs.entries.filter (fun q =>
    decide (root <+: q) && decide (root.length < q.length)
      && (q.drop root.length).all (fun s => !(hidden s))
      && ends_with (basename q) suf)

/-- Source `_find_archives_recursively`: the three glob patterns in
order, results concatenated. -/
def find_archives_recursively (fs : FS) (root : Path) : List Path :=
  glob_rec fs root ".zip" ++ glob_rec fs root ".tar.gz" ++ glob_rec fs root ".tgz"

/-- Models Python `x or default` on the optional version string: the
default is substituted for `None` and for the falsy empty string. -/
def pyOr (o : Option String) (d : String) : String :=
  match o with
  | none => d
  | some s => if s = "" then d else s

/-- Configuration the bootstrapper reads: target platform identifier and
the installation root (`config.toolchain_prefix`). -/
structure Config where
  platform : String
  pfx : Path

/-- Name of the version marker file. -/
def marker_name : String := ".ohos-sdk-version"

/-- Lines 113-118: best-effort write of the version marker, failures
swallowed.  Opening fails when the parent is not a directory or a
directory sits at the marker path. -/
def write_version_marker (fs : FS) (pfx : Path) : FS :=
  if fs.isDirB pfx && !(fs.isDirB (pfx ++ [marker_name])) then
    fs.writeFile (pfx ++ [marker_name]) (.raw (SDK_VERSION ++ "\n"))
  else fs

/-- Lines 109-118 of `start`: ensure the installation root exists and
best-effort write the version marker. -/
def staged (cfg : Config) (fs0 : FS) : FS :=
  write_version_marker
    (if fs0.existsB cfg.pfx then fs0 else fs0.makedirs cfg.pfx) cfg.pfx

/-- The staging directory `<prefix>/ohos-sdk`. -/
def sdk_dir (cfg : Config) : Path := cfg.pfx ++ ["ohos-sdk"]

/-- The per-platform staging subdirectory. -/
def platform_dir (cfg : Config) : Path :=
  sdk_dir cfg ++ [platform_dir_name cfg.platform]

/-- Lines 127-136: locate all archives and filter to wanted
components. -/
def wanted_archives (cfg : Config) (fs : FS) : List Path :=
  (find_archives_recursively fs (platform_dir cfg)).filter
    (fun a => WANTED_COMPONENTS.contains (comp_of a))

/-- Loop body, lines 138-155: extract one archive, skip it when the
format is unrecognized, else read its version and relocate the
component, overwriting the version-keyed target. -/
def process_one (pfxP platformDir : Path) (fs : FS) (archive : Path) :
    Except (PipeError × FS) FS :=
  let comp := comp_of archive
  match extract_archive fs archive platformDir with
  | .error e => .error e
  | .ok (fs1, recog) =>
    if recog then
      let source_dir := platformDir ++ [comp]
      let api_version := pyOr (read_api_version fs1 source_dir) "unknown"
      let target_dir := pfxP ++ [api_version]
      match (if fs1.existsB target_dir then fs1.rmtree target_dir else .ok fs1) with
      | .error _ => .error (.rmtreeFailed target_dir, fs1)
      | .ok fs2 =>
        let fs3 := fs2.makedirs target_dir
        match fs3.move source_dir target_dir with
        | .error _ => .error (.moveFailed source_dir, fs3)
        | .ok fs4 => .ok fs4
    else .ok fs1

/-- The `for archive in archives` loop. -/
def process_archives (pfxP platformDir : Path) : FS → List Path →
    Except (PipeError × FS) FS
  | fs, [] => .ok fs
  | fs, a :: rest =>
    match process_one pfxP platformDir fs a with
    | .error e => .error e
    | .ok fs' => process_archives pfxP platformDir fs' rest

/-- Source `OpenHarmonyBootstrapper.start` (lines 109-157).  The error
value carries the on-disk state left behind when the exception
propagates. -/
def start (cfg : Config) (fs0 : FS) : Except (PipeError × FS) FS :=
  if (staged cfg fs0).isDirB (sdk_dir cfg) then
    match process_archives cfg.pfx (platform_dir cfg) (staged cfg fs0)
        (wanted_archives cfg (staged cfg fs0)) with
    | .error e => .error e
    | .ok fs3 => .ok (fs3.rmtree_ignore (sdk_dir cfg))
  else .ok (staged cfg fs0)

/-! ### Definitions written from the specification's words, for
refinement comparisons -/

/-- Modelled from the spec: the ComponentToken is the substring before
the first dot, then the substring of that before the first occurrence of
a dash or an underscore, whichever occurs first; if neither occurs, the
full pre-dot substring. -/
def classify_spec (base : String) : String :=
  let pre_dot := base.data.takeWhile (fun c => c != '.')
  ⟨pre_dot.takeWhile (fun c => !(c == '-' || c == '_'))⟩

/-- Strict lexicographic order on character lists. -/
def chars_lt : List Char → List Char → Bool
  | [], [] => false
  | [], _ :: _ => true
  | _ :: _, [] => false
  | a :: as, b :: bs => if a < b then true else if a = b then chars_lt as bs else false

/-- Strict lexicographic order on strings. -/
def str_lt (a b : String) : Bool := chars_lt a.data b.data

/-- Strict lexicographic order on paths (componentwise by string
order). -/
def path_lt : Path → Path → Bool
  | [], [] => false
  | [], _ :: _ => true
  | _ :: _, [] => false
  | a :: as, b :: bs => if str_lt a b then true else if a = b then path_lt as bs else false

/-- Least element of a nonempty candidate list under `path_lt`. -/
def lex_min (c : Path) (cs : List Path) : Path :=
  cs.foldl (fun acc d => if path_lt d acc then d else acc) c

/-- Modelled from the spec: the Metadata Reader that, one level below
the root, takes the first lexicographically-sorted match when several
subdirectories qualify (spec 4.4's policy), instead of the first match
in directory-listing order. -/
def read_api_version_lex (fs : FS) (component_root : Path) : Option String :=
  let pkg := component_root ++ [pkg_name]
  match (if fs.isFileB pkg then some pkg
         else match glob_child_pkg fs component_root with
              | [] => none
              | c :: cs => some (lex_min c cs)) with
  | none => none
  | some p => read_pkg_file fs p

/-- Well-formed filesystem: every nonempty proper ancestor of an entry
is a directory. -/
def FS.WFb (fs : FS) : Bool :=
  fs.entries.all (fun q => (path_inits q).all (fun p => decide (p = q) || decide (p ∈ fs.dirs)))

/-! ### Concrete inputs used by witnesses and counterexamples -/

/-- JSON document with a single string-valued `apiVersion` field. -/
def avObj (s : String) : Json := .obj (.cons "apiVersion" (.str s) .nil)

/-- Two qualifying subdirectories whose listing order (`b` before `a`)
is the reverse of lexicographic order. -/
def fsC4 : FS :=
  ⟨[[], ["r"], ["r", "b"], ["r", "a"]],
   [(["r", "b", "oh-uni-package.json"], .jsonDoc (avObj "2")),
    (["r", "a", "oh-uni-package.json"], .jsonDoc (avObj "1"))]⟩

/-- Configuration of the concrete runs: linux platform, installation
root `p`. -/
def cfgRun : Config := ⟨"linux", ["p"]⟩

/-- Staged tree with one wanted, well-formed zip archive whose component
declares apiVersion 12. -/
def fsRun : FS :=
  ⟨[[], ["p"], ["p", "ohos-sdk"], ["p", "ohos-sdk", "linux"]],
   [(["p", "ohos-sdk", "linux", "native.zip"],
     .archive .zipf (some [(["native", "oh-uni-package.json"], .jsonDoc (avObj "12")),
                           (["native", "lib.so"], .raw "bin")]))]⟩

/-- Staged tree with one wanted but corrupt zip archive: extraction
raises. -/
def fsC3 : FS :=
  ⟨[[], ["p"], ["p", "ohos-sdk"], ["p", "ohos-sdk", "linux"]],
   [(["p", "ohos-sdk", "linux", "native.zip"], .archive .zipf none)]⟩

/-- A root containing exactly one file whose name ends in `.zip`, but
the name begins with a dot. -/
def fsC7 : FS := ⟨[[], ["r"]], [((["r", ".zip"]), .raw "x")]⟩

/-- Input tree for the relocation witness: a staged wanted archive plus
a stale tree already sitting at the version-keyed target `p/12`. -/
def fsC1 : FS :=
  ⟨[[], ["p"], ["p", "ohos-sdk"], ["p", "ohos-sdk", "linux"], ["p", "12"], ["p", "12", "old"]],
   [(["p", "ohos-sdk", "linux", "native.zip"],
     .archive .zipf (some [(["native", "oh-uni-package.json"], .jsonDoc (avObj "12")),
                           (["native", "lib.so"], .raw "bin")])),
    (["p", "12", "old", "stale.txt"], .raw "old")]⟩

/-- Final state of the successful concrete run. -/
def runResult : FS :=
  match start cfgRun fsRun with
  | .ok f => f
  | .error e => e.2

/-! ### Helper lemmas -/

theorem takeWhile_comp (p q : Char → Bool) (l : List Char) :
    (l.takeWhile p).takeWhile q = l.takeWhile (fun a => p a && q a) := by
  induction l with
  | nil => rfl
  | cons a t ih =>
    by_cases hp : p a <;> by_cases hq : q a <;>
      simp [List.takeWhile_cons, hp, hq, ih]

/-! ### Claim C2 -/

/-- C2: for every file name string, the ComponentToken equals the
substring before the first dot truncated before the first dash or
underscore (whichever comes first), matches the spec's three examples,
and is empty for names beginning with a dot. -/
theorem C2_component_classifier :
    (∀ base : String, classify base = classify_spec base)
    ∧ classify "native-api12.tar.gz" = "native"
    ∧ classify "js_sdk.zip" = "js"
    ∧ classify "previewer.tgz" = "previewer"
    ∧ (∀ cs : List Char, classify (String.mk ('.' :: cs)) = "") := by
  refine ⟨?_, by decide, by decide, by decide, ?_⟩
  · intro base
    show String.mk _ = String.mk _
    congr 1
    show List.takeWhile (fun c => c != '_')
        (List.takeWhile (fun c => c != '-')
          (List.takeWhile (fun c => c != '.') base.data))
      = List.takeWhile (fun c => !(c == '-' || c == '_'))
          (List.takeWhile (fun c => c != '.') base.data)
    rw [takeWhile_comp (fun c => c != '-') (fun c => c != '_')]
    have hpred : (fun a : Char => (a != '-') && (a != '_'))
        = (fun c : Char => !(c == '-' || c == '_')) := by
      funext c
      by_cases h1 : c = '-' <;> by_cases h2 : c = '_' <;> simp [h1, h2, bne]
    rw [hpred]
  · intro cs
    have h0 : ('.' :: cs).takeWhile (fun c => c != '.') = [] := by
      simp [List.takeWhile_cons]
    simp [classify, split_head, h0]

/-! ### Claim C8 -/

theorem makedirs_files (fs : FS) (p : Path) : (fs.makedirs p).files = fs.files := rfl

/-- C8: the extractor dispatches on the case-insensitive suffix — zip
suffix to the zip container, tar.gz or tgz suffix to the gzip tar
container — and any other suffix extracts nothing and returns the
`false` signal instead of raising. -/
theorem C8_extractor_dispatch (fs : FS) (p d : Path) :
    (recognized_format (basename p) = none →
      extract_archive fs p d = .ok (fs.makedirs d, false)
        ∧ (fs.makedirs d).files = fs.files)
    ∧ (recognized_format (basename p) = some .zipf →
      extract_archive fs p d = zip_extract (fs.makedirs d) p d)
    ∧ (recognized_format (basename p) = some .targz →
      extract_archive fs p d = tar_extract (fs.makedirs d) p d) := by
  refine ⟨fun h => ?_, fun h => ?_, fun h => ?_⟩ <;>
      unfold recognized_format at h <;>
      unfold extract_archive
  · by_cases h1 : ends_with (lower (basename p)) ".zip"
    · rw [if_pos h1] at h; cases h
    · rw [if_neg h1] at h
      rw [if_neg h1]
      by_cases h2 : (ends_with (lower (basename p)) ".tar.gz"
          || ends_with (lower (basename p)) ".tgz") = true
      · rw [if_pos h2] at h; cases h
      · rw [if_neg h2] at h
        exact ⟨by rw [if_neg h2], rfl⟩
  · by_cases h1 : ends_with (lower (basename p)) ".zip"
    · rw [if_pos h1]
    · rw [if_neg h1] at h
      by_cases h2 : (ends_with (lower (basename p)) ".tar.gz"
          || ends_with (lower (basename p)) ".tgz") = true
      · rw [if_pos h2] at h; simp at h
      · rw [if_neg h2] at h; cases h
  · by_cases h1 : ends_with (lower (basename p)) ".zip"
    · rw [if_pos h1] at h; simp at h
    · rw [if_neg h1] at h
      rw [if_neg h1]
      by_cases h2 : (ends_with (lower (basename p)) ".tar.gz"
          || ends_with (lower (basename p)) ".tgz") = true
      · rw [if_pos h2]
      · rw [if_neg h2] at h; cases h

/-- Witness for C8 at a concrete input: an upper-case name `NATIVE.ZIP`
is dispatched to the zip container (case-insensitivity), and a `.rar`
name is skipped with `false` and no file change. -/
theorem C8_extractor_dispatch_witness :
    (recognized_format (basename [("NATIVE.ZIP" : String)]) = some .zipf
      ∧ extract_archive ⟨[[]], []⟩ ["NATIVE.ZIP"] ["d"]
          = zip_extract ((⟨[[]], []⟩ : FS).makedirs ["d"]) ["NATIVE.ZIP"] ["d"])
    ∧ (recognized_format (basename [("toolchains.rar" : String)]) = none
      ∧ extract_archive ⟨[[]], []⟩ ["toolchains.rar"] ["d"]
          = .ok ((⟨[[]], []⟩ : FS).makedirs ["d"], false)
        ∧ ((⟨[[]], []⟩ : FS).makedirs ["d"]).files = (⟨[[]], []⟩ : FS).files) :=
  ⟨⟨rfl, (C8_extractor_dispatch ⟨[[]], []⟩ ["NATIVE.ZIP"] ["d"]).2.1 rfl⟩,
   ⟨rfl, (C8_extractor_dispatch ⟨[[]], []⟩ ["toolchains.rar"] ["d"]).1 rfl⟩⟩

/-! ### Claim C10 -/

theorem mem_glob_rec {fs : FS} {root : Path} {suf : String} {q : Path} :
    q ∈ glob_rec fs root suf ↔
      q ∈ fs.entries ∧ root <+: q ∧ root.length < q.length
        ∧ (q.drop root.length).all (fun s => !(hidden s)) = true
        ∧ ends_with (basename q) suf = true := by
  simp [glob_rec, List.mem_filter, Bool.and_eq_true, decide_eq_true_eq, and_assoc]

theorem lower_ends_with {s suf : String}
    (hfix : suf.data.map Char.toLower = suf.data)
    (h : ends_with s suf = true) : ends_with (lower s) suf = true := by
  simp only [ends_with, decide_eq_true_eq] at h ⊢
  have hm := h.map Char.toLower
  rw [hfix] at hm
  exact hm

theorem zip_extract_ne_skip (fs : FS) (p d : Path) (fs' : FS) :
    zip_extract fs p d ≠ .ok (fs', false) := by
  intro hc
  unfold zip_extract at hc
  rcases hm : fs.lookupFile p with _ | c
  · rw [hm] at hc; simp at hc
  · rcases c with s | j | ⟨fmt, pay⟩
    · rw [hm] at hc; simp at hc
    · rw [hm] at hc; simp at hc
    · rcases fmt <;> rcases pay with _ | es <;> rw [hm] at hc <;> simp at hc

theorem tar_extract_ne_skip (fs : FS) (p d : Path) (fs' : FS) :
    tar_extract fs p d ≠ .ok (fs', false) := by
  intro hc
  unfold tar_extract at hc
  rcases hm : fs.lookupFile p with _ | c
  · rw [hm] at hc; simp at hc
  · rcases c with s | j | ⟨fmt, pay⟩
    · rw [hm] at hc; simp at hc
    · rw [hm] at hc; simp at hc
    · rcases fmt <;> rcases pay with _ | es <;> rw [hm] at hc <;> simp at hc

theorem extract_not_skip {g : FS} {q d : Path}
    (h : ends_with (lower (basename q)) ".zip" = true
      ∨ ends_with (lower (basename q)) ".tar.gz" = true
      ∨ ends_with (lower (basename q)) ".tgz" = true) :
    ∀ fs', extract_archive g q d ≠ .ok (fs', false) := by
  intro fs' hc
  unfold extract_archive at hc
  by_cases h1 : ends_with (lower (basename q)) ".zip"
  · rw [if_pos h1] at hc
    exact zip_extract_ne_skip _ _ _ _ hc
  · rw [if_neg h1] at hc
    by_cases h2 : (ends_with (lower (basename q)) ".tar.gz"
        || ends_with (lower (basename q)) ".tgz") = true
    · rw [if_pos h2] at hc
      exact tar_extract_ne_skip _ _ _ _ hc
    · rcases h with h | h | h
      · exact h1 h
      · exact h2 (by simp [h])
      · exact h2 (by simp [h])

/-- C10: every path the Archive Locator returns ends case-sensitively in
one of the three suffixes, so the extractor never answers with the
"unrecognized format" signal on it: the pipeline's format-skip branch is
unreachable on Locator-produced inputs. -/
theorem C10_locator_extractor_agree (fs : FS) (root q : Path)
    (h : q ∈ find_archives_recursively fs root) :
    (ends_with (basename q) ".zip" = true
      ∨ ends_with (basename q) ".tar.gz" = true
      ∨ ends_with (basename q) ".tgz" = true)
    ∧ ∀ (g : FS) (d : Path) (fs' : FS), extract_archive g q d ≠ .ok (fs', false) := by
  have hm : ends_with (basename q) ".zip" = true
      ∨ ends_with (basename q) ".tar.gz" = true
      ∨ ends_with (basename q) ".tgz" = true := by
    rcases List.mem_append.mp h with h' | h'
    · rcases List.mem_append.mp h' with h'' | h''
      · exact .inl (mem_glob_rec.mp h'').2.2.2.2
      · exact .inr (.inl (mem_glob_rec.mp h'').2.2.2.2)
    · exact .inr (.inr (mem_glob_rec.mp h').2.2.2.2)
  refine ⟨hm, fun g d fs' => extract_not_skip ?_ fs'⟩
  rcases hm with h' | h' | h'
  · exact .inl (lower_ends_with (by decide) h')
  · exact .inr (.inl (lower_ends_with (by decide) h'))
  · exact .inr (.inr (lower_ends_with (by decide) h'))

/-- Witness for C10: the locator on the concrete staged tree returns the
`native.zip` path, and on it the extractor never signals "unrecognized
format". -/
theorem C10_locator_extractor_agree_witness :
    (["p", "ohos-sdk", "linux", "native.zip"]
        ∈ find_archives_recursively fsRun ["p", "ohos-sdk", "linux"])
    ∧ ((ends_with (basename ["p", "ohos-sdk", "linux", "native.zip"]) ".zip" = true
        ∨ ends_with (basename ["p", "ohos-sdk", "linux", "native.zip"]) ".tar.gz" = true
        ∨ ends_with (basename ["p", "ohos-sdk", "linux", "native.zip"]) ".tgz" = true)
      ∧ ∀ (g : FS) (d : Path) (fs' : FS),
          extract_archive g ["p", "ohos-sdk", "linux", "native.zip"] d ≠ .ok (fs', false)) := by
  have h : ["p", "ohos-sdk", "linux", "native.zip"]
      ∈ find_archives_recursively fsRun ["p", "ohos-sdk", "linux"] := by decide
  exact ⟨h, C10_locator_extractor_agree fsRun ["p", "ohos-sdk", "linux"] _ h⟩

/-! ### Claim C7 -/

theorem mem_path_inits {q p : Path} : q ∈ path_inits p ↔ q ≠ [] ∧ q <+: p := by
  constructor
  · intro h
    rcases List.mem_map.mp h with ⟨i, hi, rfl⟩
    have hilt : i < p.length := List.mem_range.mp hi
    refine ⟨?_, List.take_prefix _ _⟩
    intro hnil
    have hlen : (p.take (i + 1)).length = 0 := by rw [hnil]; rfl
    rw [List.length_take] at hlen
    omega
  · rintro ⟨hne, hpre⟩
    have hq : q = p.take q.length := List.prefix_iff_eq_take.mp hpre
    have hlen : 1 ≤ q.length := by
      cases q with
      | nil => exact absurd rfl hne
      | cons a t => simp
    have hle : q.length ≤ p.length := hpre.length_le
    refine List.mem_map.mpr ⟨q.length - 1, List.mem_range.mpr (by omega), ?_⟩
    have h1 : q.length - 1 + 1 = q.length := by omega
    rw [h1, ← hq]

theorem mem_find_archives {fs : FS} {root q : Path} :
    q ∈ find_archives_recursively fs root ↔
      q ∈ fs.entries ∧ root <+: q ∧ root.length < q.length
        ∧ (q.drop root.length).all (fun s => !(hidden s)) = true
        ∧ (ends_with (basename q) ".zip" = true
            ∨ ends_with (basename q) ".tar.gz" = true
            ∨ ends_with (basename q) ".tgz" = true) := by
  simp only [find_archives_recursively, List.mem_append, mem_glob_rec]
  tauto

/-- C7 as amended: the Archive Locator returns exactly the entries below
the root whose name ends case-sensitively in one of the three suffixes
and whose relative path contains no component beginning with a dot (glob
skips hidden names); on a well-formed filesystem a nonexistent root
yields the empty sequence. -/
theorem C7_archive_locator (fs : FS) (root : Path) :
    (fs.WFb = true → root ≠ [] → fs.existsB root = false →
      find_archives_recursively fs root = [])
    ∧ (∀ q, q ∈ find_archives_recursively fs root ↔
        q ∈ fs.entries ∧ root <+: q ∧ root.length < q.length
          ∧ (q.drop root.length).all (fun s => !(hidden s)) = true
          ∧ (ends_with (basename q) ".zip" = true
              ∨ ends_with (basename q) ".tar.gz" = true
              ∨ ends_with (basename q) ".tgz" = true)) := by
  refine ⟨fun hWF hne hex => ?_, fun q => mem_find_archives⟩
  rw [List.eq_nil_iff_forall_not_mem]
  intro q hq
  obtain ⟨hent, hpre, hlen, -, -⟩ := mem_find_archives.mp hq
  have hq' := List.all_eq_true.mp hWF q hent
  have hr : root ∈ path_inits q := mem_path_inits.mpr ⟨hne, hpre⟩
  have := List.all_eq_true.mp hq' root hr
  rcases Bool.or_eq_true _ _ |>.mp this with h | h
  · have heq : root = q := of_decide_eq_true h
    rw [heq] at hlen
    omega
  · have hmem : root ∈ fs.dirs := of_decide_eq_true h
    have : fs.isDirB root = true := decide_eq_true hmem
    simp [FS.existsB, this] at hex

/-- Counterexample to C7 as stated: the root `r` contains exactly one
file whose name ends in `.zip` (the hidden name `.zip`), yet the Archive
Locator returns the empty sequence, not that one path. -/
theorem C7_archive_locator_cx :
    find_archives_recursively fsC7 ["r"] = []
    ∧ (((["r", ".zip"] : Path), Content.raw "x") ∈ fsC7.files)
    ∧ ends_with (basename ["r", ".zip"]) ".zip" = true := by
  refine ⟨by decide, ?_, by decide⟩
  simp [fsC7]

/-- Witness for C7 at a concrete input: on the empty filesystem the
nonexistent root `r` yields the empty sequence. -/
theorem C7_archive_locator_witness :
    FS.WFb ⟨[[]], []⟩ = true ∧ (⟨[[]], []⟩ : FS).existsB ["r"] = false
      ∧ find_archives_recursively ⟨[[]], []⟩ ["r"] = [] :=
  ⟨by decide, by decide,
   (C7_archive_locator ⟨[[]], []⟩ ["r"]).1 (by decide) (by decide) (by decide)⟩

/-! ### Claim C4 -/

/-- Counterexample to C4 as stated: with listing order `b` before `a`,
the Reader returns the version from `b`'s metadata, while the
lexicographically smallest qualifying match (spec rule, `read_api_version_lex`)
would give `a`'s version. -/
theorem C4_metadata_order_cx :
    read_api_version fsC4 ["r"] = some "2"
    ∧ read_api_version_lex fsC4 ["r"] = some "1" := by
  constructor <;> decide

/-- C4 as amended: when the root itself has no metadata file and the
one-level-deeper glob is nonempty, the Reader reads the first candidate
in directory-listing order (not the lexicographically smallest). -/
theorem C4_metadata_first_listed (fs : FS) (root c : Path) (cs : List Path)
    (hroot : fs.isFileB (root ++ [pkg_name]) = false)
    (hglob : glob_child_pkg fs root = c :: cs) :
    read_api_version fs root = read_pkg_file fs c := by
  unfold read_api_version locate_pkg
  simp [hroot, hglob]

/-- Witness for C4 at the concrete listing-ordered input. -/
theorem C4_metadata_first_listed_witness :
    fsC4.isFileB (["r"] ++ [pkg_name]) = false
    ∧ glob_child_pkg fsC4 ["r"] = [["r", "b", pkg_name], ["r", "a", pkg_name]]
    ∧ read_api_version fsC4 ["r"] = read_pkg_file fsC4 ["r", "b", pkg_name] :=
  ⟨by decide, by decide,
   C4_metadata_first_listed fsC4 ["r"] ["r", "b", pkg_name] [["r", "a", pkg_name]]
     (by decide) (by decide)⟩

/-! ### Claim C6 -/

/-- C6: the Metadata Reader either returns no version — and then the
pipeline substitutes the sentinel "unknown" — or it located a parseable
metadata file whose `apiVersion` field it returns coerced to a string;
no case raises. -/
theorem C6_metadata_fallback (fs : FS) (root : Path) :
    (read_api_version fs root = none
      ∧ pyOr (read_api_version fs root) "unknown" = "unknown")
    ∨ (∃ p data v, locate_pkg fs root = some p
        ∧ fs.lookupFile p = some (.jsonDoc data)
        ∧ data.get "apiVersion" = some v
        ∧ read_api_version fs root = some (pyStr v)) := by
  rcases hl : locate_pkg fs root with _ | p
  · left
    have h0 : read_api_version fs root = none := by
      simp [read_api_version, hl]
    exact ⟨h0, by simp [h0, pyOr]⟩
  · rcases hf : fs.lookupFile p with _ | c
    · left
      have h0 : read_api_version fs root = none := by
        simp [read_api_version, read_pkg_file, hl, hf]
      exact ⟨h0, by simp [h0, pyOr]⟩
    · rcases c with s | j | ⟨fmt, pay⟩
      · left
        have h0 : read_api_version fs root = none := by
          simp [read_api_version, read_pkg_file, hl, hf]
        exact ⟨h0, by simp [h0, pyOr]⟩
      · rcases hg : j.get "apiVersion" with _ | v
        · left
          have h0 : read_api_version fs root = none := by
            simp [read_api_version, read_pkg_file, hl, hf, hg]
          exact ⟨h0, by simp [h0, pyOr]⟩
        · right
          exact ⟨p, j, v, rfl, hf, hg, by
            simp [read_api_version, read_pkg_file, hl, hf, hg]⟩
      · left
        have h0 : read_api_version fs root = none := by
          simp [read_api_version, read_pkg_file, hl, hf]
        exact ⟨h0, by simp [h0, pyOr]⟩

/-! ### Claim C5 -/

theorem extract_unrecognized {fs : FS} {a d : Path}
    (h : recognized_format (basename a) = none) :
    extract_archive fs a d = .ok (fs.makedirs d, false) := by
  unfold recognized_format at h
  unfold extract_archive
  by_cases h1 : ends_with (lower (basename a)) ".zip"
  · rw [if_pos h1] at h; cases h
  · rw [if_neg h1] at h
    rw [if_neg h1]
    by_cases h2 : (ends_with (lower (basename a)) ".tar.gz"
        || ends_with (lower (basename a)) ".tgz") = true
    · rw [if_pos h2] at h; cases h
    · rw [if_neg h2]

theorem process_one_skip (pfxP pd : Path) (fs : FS) (a : Path)
    (h : recognized_format (basename a) = none) :
    process_one pfxP pd fs a = .ok (fs.makedirs pd) := by
  unfold process_one
  rw [extract_unrecognized h]
  rfl

theorem process_one_error_recognized {pfxP pd : Path} {fs : FS} {a : Path}
    {E : PipeError × FS} (h : process_one pfxP pd fs a = .error E) :
    recognized_format (basename a) ≠ none := by
  intro hn
  rw [process_one_skip _ _ _ _ hn] at h
  cases h

theorem process_archives_nil (pfxP pd : Path) (fs : FS) :
    process_archives pfxP pd fs [] = .ok fs := rfl

theorem process_archives_cons (pfxP pd : Path) (fs : FS) (a : Path)
    (rest : List Path) :
    process_archives pfxP pd fs (a :: rest)
      = match process_one pfxP pd fs a with
        | .error e => .error e
        | .ok fs' => process_archives pfxP pd fs' rest := rfl

theorem process_archives_skip (pfxP pd : Path) (fs : FS) (a : Path)
    (rest : List Path) (h : recognized_format (basename a) = none) :
    process_archives pfxP pd fs (a :: rest)
      = process_archives pfxP pd (fs.makedirs pd) rest := by
  rw [process_archives_cons, process_one_skip _ _ _ _ h]

theorem process_archives_error_split (pfxP pd : Path) (as : List Path)
    (fs : FS) (E : PipeError × FS) :
    process_archives pfxP pd fs as = .error E ↔
      ∃ as1 a as2 fsMid, as = as1 ++ a :: as2
        ∧ process_archives pfxP pd fs as1 = .ok fsMid
        ∧ process_one pfxP pd fsMid a = .error E := by
  induction as generalizing fs with
  | nil =>
    constructor
    · intro h; cases h
    · rintro ⟨as1, a, as2, fsMid, heq, -, -⟩
      exact absurd heq (by cases as1 <;> simp)
  | cons a rest ih =>
    constructor
    · intro h
      rw [process_archives_cons] at h
      rcases hp : process_one pfxP pd fs a with e | fs'
      · rw [hp] at h
        cases h
        exact ⟨[], a, rest, fs, rfl, rfl, hp⟩
      · rw [hp] at h
        rcases (ih fs').mp h with ⟨as1, b, as2, fsMid, heq, hok, herr⟩
        refine ⟨a :: as1, b, as2, fsMid, by rw [heq, List.cons_append], ?_, herr⟩
        rw [process_archives_cons, hp]
        exact hok
    · rintro ⟨as1, b, as2, fsMid, heq, hok, herr⟩
      cases as1 with
      | nil =>
        simp only [List.nil_append, List.cons.injEq] at heq
        obtain ⟨rfl, rfl⟩ := heq
        rw [process_archives_nil] at hok
        cases hok
        rw [process_archives_cons, herr]
      | cons c as1' =>
        simp only [List.cons_append, List.cons.injEq] at heq
        obtain ⟨rfl, heq'⟩ := heq
        rw [process_archives_cons] at hok ⊢
        rcases hp : process_one pfxP pd fs a with e | fs'
        · rw [hp] at hok; cases hok
        · rw [hp] at hok
          exact (ih fs').mpr ⟨as1', b, as2, fsMid, heq', hok, herr⟩

/-- C5: the run aborts exactly when, for some wanted archive in
discovery order after some successfully processed ones, that archive's
processing step raises (extraction of a recognized format, or the
remove/create/move around the target); any such abort implicates an
archive of recognized format, and an unrecognized suffix never aborts:
that archive is skipped and the loop continues with the rest. -/
theorem C5_abort_conditions (cfg : Config) (fs0 : FS) (E : PipeError × FS) :
    (start cfg fs0 = .error E ↔
      ((staged cfg fs0).isDirB (sdk_dir cfg) = true
        ∧ ∃ as1 a as2 fsMid,
            wanted_archives cfg (staged cfg fs0) = as1 ++ a :: as2
              ∧ process_archives cfg.pfx (platform_dir cfg) (staged cfg fs0) as1
                  = .ok fsMid
              ∧ process_one cfg.pfx (platform_dir cfg) fsMid a = .error E))
    ∧ (∀ (pfxP pd : Path) (fs : FS) (a : Path) (E2 : PipeError × FS),
        process_one pfxP pd fs a = .error E2 →
          recognized_format (basename a) ≠ none)
    ∧ (∀ (pfxP pd : Path) (fs : FS) (a : Path) (rest : List Path),
        recognized_format (basename a) = none →
          process_one pfxP pd fs a = .ok (fs.makedirs pd)
            ∧ process_archives pfxP pd fs (a :: rest)
                = process_archives pfxP pd (fs.makedirs pd) rest) := by
  refine ⟨?_, fun _ _ _ _ _ h => process_one_error_recognized h,
    fun pfxP pd fs a rest h =>
      ⟨process_one_skip pfxP pd fs a h, process_archives_skip pfxP pd fs a rest h⟩⟩
  unfold start
  by_cases hdir : (staged cfg fs0).isDirB (sdk_dir cfg) = true
  · rw [if_pos hdir]
    constructor
    · intro h
      rcases hp : process_archives cfg.pfx (platform_dir cfg) (staged cfg fs0)
          (wanted_archives cfg (staged cfg fs0)) with e | fs3
      · rw [hp] at h
        cases h
        exact ⟨hdir, (process_archives_error_split _ _ _ _ _).mp hp⟩
      · rw [hp] at h
        cases h
    · rintro ⟨-, hsplit⟩
      rw [(process_archives_error_split _ _ _ _ _).mpr hsplit]
  · rw [if_neg hdir]
    constructor
    · intro h; cases h
    · rintro ⟨hdir', -⟩
      exact absurd hdir' hdir

/-- Witness for C5 at a concrete input: the corrupt-archive run aborts,
and the abort decomposes as the iff describes. -/
theorem C5_abort_conditions_witness :
    start cfgRun fsC3
        = .error (.extractionFailed ["p", "ohos-sdk", "linux", "native.zip"],
            (staged cfgRun fsC3).makedirs (platform_dir cfgRun))
    ∧ ((start cfgRun fsC3
        = .error (.extractionFailed ["p", "ohos-sdk", "linux", "native.zip"],
            (staged cfgRun fsC3).makedirs (platform_dir cfgRun)))
      ↔ ((staged cfgRun fsC3).isDirB (sdk_dir cfgRun) = true
        ∧ ∃ as1 a as2 fsMid,
            wanted_archives cfgRun (staged cfgRun fsC3) = as1 ++ a :: as2
              ∧ process_archives cfgRun.pfx (platform_dir cfgRun) (staged cfgRun fsC3) as1
                  = .ok fsMid
              ∧ process_one cfgRun.pfx (platform_dir cfgRun) fsMid a
                  = .error (.extractionFailed ["p", "ohos-sdk", "linux", "native.zip"],
                      (staged cfgRun fsC3).makedirs (platform_dir cfgRun)))) :=
  ⟨rfl,
   (C5_abort_conditions cfgRun fsC3
    (.extractionFailed ["p", "ohos-sdk", "linux", "native.zip"],
      (staged cfgRun fsC3).makedirs (platform_dir cfgRun))).1⟩

/-! ### Claim C3 -/

theorem rmtree_ignore_isDirB (fs : FS) (p : Path) :
    (fs.rmtree_ignore p).isDirB p = false := by
  unfold FS.rmtree_ignore
  by_cases h : fs.isDirB p = true
  · rw [if_pos h]
    simp only [FS.isDirB, FS.removeSubtree, decide_eq_false_iff_not]
    intro hmem
    have hpred := (List.mem_filter.mp hmem).2
    simp [List.prefix_refl] at hpred
  · rw [if_neg h]
    simp only [Bool.not_eq_true] at h
    exact h

theorem sdk_dir_gone_of_ok {cfg : Config} {fs0 fs' : FS}
    (h : start cfg fs0 = .ok fs') : fs'.isDirB (sdk_dir cfg) = false := by
  unfold start at h
  by_cases hdir : (staged cfg fs0).isDirB (sdk_dir cfg) = true
  · rw [if_pos hdir] at h
    rcases hp : process_archives cfg.pfx (platform_dir cfg) (staged cfg fs0)
        (wanted_archives cfg (staged cfg fs0)) with e | fs3
    · rw [hp] at h; cases h
    · rw [hp] at h
      cases h
      exact rmtree_ignore_isDirB _ _
  · rw [if_neg hdir] at h
    cases h
    simp only [Bool.not_eq_true] at hdir
    exact hdir

/-- C3 as amended: when the run completes without a fatal error — all
archives succeeded or were skipped — the staging directory
`<prefix>/ohos-sdk` is no longer a directory of the final state (it is
deleted at the end, with deletion errors ignored); a fatal per-archive
error, however, aborts the run before the cleanup line runs. -/
theorem C3_cleanup_on_success (cfg : Config) (fs0 fs' : FS)
    (h : start cfg fs0 = .ok fs') :
    fs'.isDirB (sdk_dir cfg) = false :=
  sdk_dir_gone_of_ok h

/-- Counterexample to C3 as stated: a run whose only wanted archive is
corrupt aborts with an extraction error, and in the state the exception
leaves behind the staging directory `p/ohos-sdk` still exists — the
cleanup is not reached, so deletion does not happen "whatever the
outcome". -/
theorem C3_cleanup_cx :
    (match start cfgRun fsC3 with
     | .error (_, fsE) => fsE.isDirB (sdk_dir cfgRun)
     | .ok _ => false) = true := rfl

/-- Witness for C3 at a concrete input: the successful run ends with the
staging directory gone. -/
theorem C3_cleanup_on_success_witness :
    start cfgRun fsRun = .ok runResult
    ∧ runResult.isDirB (sdk_dir cfgRun) = false :=
  ⟨rfl, C3_cleanup_on_success cfgRun fsRun runResult rfl⟩

/-! ### Claim C1 -/

theorem basename_append (p : Path) (s : String) : basename (p ++ [s]) = s := by
  simp [basename]

theorem mem_makedirs_dirs {fs : FS} {p q : Path} :
    q ∈ (fs.makedirs p).dirs ↔ q ∈ fs.dirs ∨ q ∈ path_inits p := by
  simp only [FS.makedirs, List.mem_append, List.mem_filter, Bool.not_eq_eq_eq_not,
    Bool.not_true, decide_eq_false_iff_not]
  tauto

theorem mem_removeSubtree_dirs {fs : FS} {p q : Path} :
    q ∈ (fs.removeSubtree p).dirs ↔ q ∈ fs.dirs ∧ ¬ p <+: q := by
  simp [FS.removeSubtree, List.mem_filter]

theorem mem_removeSubtree_files {fs : FS} {p : Path} {e : Path × Content} :
    e ∈ (fs.removeSubtree p).files ↔ e ∈ fs.files ∧ ¬ p <+: e.1 := by
  simp [FS.removeSubtree, List.mem_filter]

theorem prefix_antisymm {l₁ l₂ : Path} (h1 : l₁ <+: l₂) (h2 : l₂ <+: l₁) :
    l₁ = l₂ :=
  List.IsPrefix.eq_of_length h1 (Nat.le_antisymm h1.length_le h2.length_le)

theorem mem_path_inits_pre {q p : Path} (h : q ∈ path_inits p) : q <+: p :=
  (mem_path_inits.mp h).2

theorem relocate_hit {src d q : Path} (h : src <+: q) :
    relocate src d q = d ++ q.drop src.length := if_pos h

theorem relocate_miss {src d q : Path} (h : ¬ src <+: q) :
    relocate src d q = q := if_neg h

/-- Relocation core, lines 151-155 of the source: remove the existing
target tree, recreate the target directory, move the component into it.
States exactly what survives below the target afterwards. -/
theorem relocate_core (fs1 : FS) (src target : Path) (comp : String)
    (hlen : target.length < src.length)
    (hnp : ¬ target <+: src)
    (hsrc : src ∈ fs1.dirs)
    (hbn : basename src = comp) :
    ∃ fs4,
      ((fs1.removeSubtree target).makedirs target).move src target = .ok fs4
      ∧ (∀ q, q ∈ fs4.entries → target <+: q →
          q = target ∨ (target ++ [comp]) <+: q)
      ∧ (∀ rel c, ((target ++ [comp]) ++ rel, c) ∈ fs4.files
          ↔ (src ++ rel, c) ∈ fs1.files)
      ∧ (∀ rel, ((target ++ [comp]) ++ rel) ∈ fs4.dirs
          ↔ (src ++ rel) ∈ fs1.dirs) := by
  have hsrc2 : src ∈ (fs1.removeSubtree target).dirs :=
    mem_removeSubtree_dirs.mpr ⟨hsrc, hnp⟩
  have hsrc3 : src ∈ ((fs1.removeSubtree target).makedirs target).dirs :=
    mem_makedirs_dirs.mpr (Or.inl hsrc2)
  have hex3 : ((fs1.removeSubtree target).makedirs target).existsB src = true := by
    simp [FS.existsB, FS.isDirB, hsrc3]
  have hA : ∀ w : Path, ¬ target <+: src ++ w := fun w hw =>
    hnp (List.prefix_of_prefix_length_le hw (List.prefix_append _ _) (by omega))
  refine ⟨⟨((fs1.removeSubtree target).makedirs target).dirs.map
            (relocate src (target ++ [comp])),
          ((fs1.removeSubtree target).makedirs target).files.map
            (fun e => (relocate src (target ++ [comp]) e.1, e.2))⟩,
    ?_, ?_, ?_, ?_⟩
  · unfold FS.move
    rw [if_pos hex3, hbn]
  · intro q hq htq
    rcases List.mem_append.mp hq with hqd | hqf
    · rcases List.mem_map.mp hqd with ⟨q0, hq0, rfl⟩
      by_cases hsq : src <+: q0
      · right
        rw [relocate_hit hsq]
        exact List.prefix_append _ _
      · rw [relocate_miss hsq] at htq ⊢
        rcases mem_makedirs_dirs.mp hq0 with h2 | hin
        · exact absurd htq (mem_removeSubtree_dirs.mp h2).2
        · exact Or.inl (prefix_antisymm (mem_path_inits_pre hin) htq)
    · rw [List.map_map] at hqf
      rcases List.mem_map.mp hqf with ⟨e0, he0, rfl⟩
      simp only [Function.comp_apply] at htq ⊢
      by_cases hsq : src <+: e0.1
      · right
        rw [relocate_hit hsq]
        exact List.prefix_append _ _
      · rw [relocate_miss hsq] at htq
        rw [makedirs_files] at he0
        exact absurd htq (mem_removeSubtree_files.mp he0).2
  · intro rel c
    constructor
    · intro hmem
      rcases List.mem_map.mp hmem with ⟨e0, he0, heq⟩
      have h2 : e0.2 = c := congrArg Prod.snd heq
      have h1' : relocate src (target ++ [comp]) e0.1 = (target ++ [comp]) ++ rel :=
        congrArg Prod.fst heq
      by_cases hsq : src <+: e0.1
      · obtain ⟨w, hw⟩ := hsq
        have hr : relocate src (target ++ [comp]) e0.1 = (target ++ [comp]) ++ w := by
          rw [relocate_hit ⟨w, hw⟩, ← hw, List.drop_left]
        rw [hr] at h1'
        have hwrel : w = rel := List.append_cancel_left h1'
        rw [makedirs_files] at he0
        have hf1 := (mem_removeSubtree_files.mp he0).1
        have he : e0 = (src ++ rel, c) := by
          rcases e0 with ⟨e1, e2⟩
          have hw' : src ++ w = e1 := hw
          simp only [Prod.mk.injEq]
          exact ⟨by rw [← hw', hwrel], h2⟩
        rw [← he]
        exact hf1
      · rw [relocate_miss hsq] at h1'
        have htq : target <+: e0.1 := by
          rw [h1', List.append_assoc]
          exact List.prefix_append _ _
        rw [makedirs_files] at he0
        exact absurd htq (mem_removeSubtree_files.mp he0).2
    · intro hmem
      have h2' : (src ++ rel, c) ∈ (fs1.removeSubtree target).files :=
        mem_removeSubtree_files.mpr ⟨hmem, hA rel⟩
      have h3' : (src ++ rel, c) ∈ ((fs1.removeSubtree target).makedirs target).files := by
        rw [makedirs_files]
        exact h2'
      refine List.mem_map.mpr ⟨(src ++ rel, c), h3', ?_⟩
      simp only [relocate_hit (List.prefix_append src rel), List.drop_left]
  · intro rel
    constructor
    · intro hmem
      rcases List.mem_map.mp hmem with ⟨q0, hq0, heq⟩
      by_cases hsq : src <+: q0
      · obtain ⟨w, hw⟩ := hsq
        have hr : relocate src (target ++ [comp]) q0 = (target ++ [comp]) ++ w := by
          rw [relocate_hit ⟨w, hw⟩, ← hw, List.drop_left]
        rw [hr] at heq
        have hwrel : w = rel := List.append_cancel_left heq
        rcases mem_makedirs_dirs.mp hq0 with h2 | hin
        · have := (mem_removeSubtree_dirs.mp h2).1
          rw [← hw, hwrel] at this
          exact this
        · have hq0t := mem_path_inits_pre hin
          have hst : src <+: target := List.IsPrefix.trans ⟨w, hw⟩ hq0t
          have := hst.length_le
          omega
      · rw [relocate_miss hsq] at heq
        rcases mem_makedirs_dirs.mp hq0 with h2 | hin
        · have htq : target <+: q0 := by
            rw [heq, List.append_assoc]
            exact List.prefix_append _ _
          exact absurd htq (mem_removeSubtree_dirs.mp h2).2
        · have hle := (mem_path_inits_pre hin).length_le
          have : q0.length = target.length + 1 + rel.length := by
            rw [heq]
            simp only [List.length_append, List.length_cons, List.length_nil]
          omega
    · intro hmem
      have h2' : (src ++ rel) ∈ (fs1.removeSubtree target).dirs :=
        mem_removeSubtree_dirs.mpr ⟨hmem, hA rel⟩
      have h3' : (src ++ rel) ∈ ((fs1.removeSubtree target).makedirs target).dirs :=
        mem_makedirs_dirs.mpr (Or.inl h2')
      refine List.mem_map.mpr ⟨src ++ rel, h3', ?_⟩
      simp only [relocate_hit (List.prefix_append src rel), List.drop_left]

/-- C1: for a wanted archive whose extraction succeeded, whose resolved
ApiVersion directory `<prefix>/<v>` already exists (as a directory, and
does not contain the staging area), and whose component working
directory is in place, the processing step deletes the old target tree,
recreates the target and moves the component into it: afterwards the
only things below `<prefix>/<v>` are that directory and the relocated
component, whose tree at `<prefix>/<v>/<comp>` is exactly the extracted
working tree — no file of the prior target tree survives. -/
theorem C1_relocation_last_writer_wins
    (pfxP : Path) (pname : String) (fs fs1 : FS) (a : Path)
    (pd src target : Path) (comp v : String)
    (hpd : pd = pfxP ++ ["ohos-sdk", pname])
    (hcomp : comp = comp_of a)
    (hsrceq : src = pd ++ [comp])
    (h1 : extract_archive fs a pd = .ok (fs1, true))
    (hv : pyOr (read_api_version fs1 src) "unknown" = v)
    (htareq : target = pfxP ++ [v])
    (htgt : fs1.isDirB target = true)
    (hsrc : src ∈ fs1.dirs)
    (hnp : ¬ target <+: src) :
    ∃ fs4, process_one pfxP pd fs a = .ok fs4
      ∧ (∀ q, q ∈ fs4.entries → target <+: q →
          q = target ∨ (target ++ [comp]) <+: q)
      ∧ (∀ rel c, ((target ++ [comp]) ++ rel, c) ∈ fs4.files
          ↔ (src ++ rel, c) ∈ fs1.files)
      ∧ (∀ rel, ((target ++ [comp]) ++ rel) ∈ fs4.dirs
          ↔ (src ++ rel) ∈ fs1.dirs) := by
  have hlen : target.length < src.length := by
    rw [htareq, hsrceq, hpd]
    simp only [List.length_append, List.length_cons, List.length_nil]
    omega
  have hbn : basename src = comp := by
    rw [hsrceq]
    exact basename_append _ _
  obtain ⟨fs4, hmv, hP1, hP2, hP3⟩ :=
    relocate_core fs1 src target comp hlen hnp hsrc hbn
  refine ⟨fs4, ?_, hP1, hP2, hP3⟩
  have hex1 : fs1.existsB target = true := by
    simp [FS.existsB, htgt]
  have hrm : fs1.rmtree target = .ok (fs1.removeSubtree target) := by
    unfold FS.rmtree
    rw [if_pos htgt]
  simp only [process_one, h1]
  rw [← hcomp, ← hsrceq, hv, ← htareq]
  rw [if_pos hex1, hrm]
  simp only [if_true]
  show (match ((fs1.removeSubtree target).makedirs target).move src target with
        | Except.error e => Except.error (PipeError.moveFailed src,
            (fs1.removeSubtree target).makedirs target)
        | Except.ok fs4 => Except.ok fs4) = Except.ok fs4
  rw [hmv]

/-- Witness for C1 at a concrete input: the staged `native.zip` resolves
to version 12, whose target directory `p/12` already holds a stale tree;
the step succeeds and replaces it with the extracted component. -/
theorem C1_relocation_last_writer_wins_witness :
    (extract_archive fsC1 ["p", "ohos-sdk", "linux", "native.zip"] (["p"] ++ ["ohos-sdk", "linux"])
        = .ok (merge_entries (fsC1.makedirs (["p"] ++ ["ohos-sdk", "linux"]))
            (["p"] ++ ["ohos-sdk", "linux"])
            [(["native", "oh-uni-package.json"], .jsonDoc (avObj "12")),
             (["native", "lib.so"], .raw "bin")], true))
    ∧ (∃ fs4, process_one ["p"] (["p"] ++ ["ohos-sdk", "linux"]) fsC1
          ["p", "ohos-sdk", "linux", "native.zip"] = .ok fs4
        ∧ (∀ q, q ∈ fs4.entries → (["p"] ++ ["12"]) <+: q →
            q = ["p"] ++ ["12"] ∨ ((["p"] ++ ["12"]) ++ ["native"]) <+: q)
        ∧ (∀ rel c, (((["p"] ++ ["12"]) ++ ["native"]) ++ rel, c) ∈ fs4.files
            ↔ (((["p"] ++ ["ohos-sdk", "linux"]) ++ ["native"]) ++ rel, c)
                ∈ (merge_entries (fsC1.makedirs (["p"] ++ ["ohos-sdk", "linux"]))
                    (["p"] ++ ["ohos-sdk", "linux"])
                    [(["native", "oh-uni-package.json"], .jsonDoc (avObj "12")),
                     (["native", "lib.so"], .raw "bin")]).files)
        ∧ (∀ rel, ((((["p"] ++ ["12"]) ++ ["native"]) ++ rel)) ∈ fs4.dirs
            ↔ (((["p"] ++ ["ohos-sdk", "linux"]) ++ ["native"]) ++ rel)
                ∈ (merge_entries (fsC1.makedirs (["p"] ++ ["ohos-sdk", "linux"]))
                    (["p"] ++ ["ohos-sdk", "linux"])
                    [(["native", "oh-uni-package.json"], .jsonDoc (avObj "12")),
                     (["native", "lib.so"], .raw "bin")]).dirs)) :=
  ⟨rfl,
   C1_relocation_last_writer_wins ["p"] "linux" fsC1
     (merge_entries (fsC1.makedirs (["p"] ++ ["ohos-sdk", "linux"]))
       (["p"] ++ ["ohos-sdk", "linux"])
       [(["native", "oh-uni-package.json"], .jsonDoc (avObj "12")),
        (["native", "lib.so"], .raw "bin")])
     ["p", "ohos-sdk", "linux", "native.zip"]
     (["p"] ++ ["ohos-sdk", "linux"])
     ((["p"] ++ ["ohos-sdk", "linux"]) ++ ["native"])
     (["p"] ++ ["12"]) "native" "12"
     rfl rfl rfl rfl (by decide) rfl (by decide) (by decide) (by decide)⟩

/-! ### Claim C9 -/

theorem wvm_dirs (fs : FS) (p : Path) :
    (write_version_marker fs p).dirs = fs.dirs := by
  unfold write_version_marker
  split
  · unfold FS.writeFile
    split <;> rfl
  · rfl

theorem wvm_files_ne {fs : FS} {p q : Path} {c : Content}
    (hq : q ≠ p ++ [marker_name]) :
    ((q, c) ∈ (write_version_marker fs p).files ↔ (q, c) ∈ fs.files) := by
  unfold write_version_marker
  split
  · unfold FS.writeFile
    split
    · constructor
      · intro hm
        rcases List.mem_map.mp hm with ⟨e, he, heq⟩
        by_cases he1 : e.1 = p ++ [marker_name]
        · rw [if_pos he1] at heq
          have : q = p ++ [marker_name] := (congrArg Prod.fst heq).symm
          exact absurd this hq
        · rw [if_neg he1] at heq
          exact heq ▸ he
      · intro hm
        refine List.mem_map.mpr ⟨(q, c), hm, ?_⟩
        rw [if_neg hq]
    · constructor
      · intro hm
        rcases List.mem_append.mp hm with h | h
        · exact h
        · simp only [List.mem_singleton] at h
          have : q = p ++ [marker_name] := congrArg Prod.fst h
          exact absurd this hq
      · intro hm
        exact List.mem_append.mpr (Or.inl hm)
  · exact Iff.rfl

theorem not_prefix_of_length_lt {p q : Path} (h : q.length < p.length) :
    ¬ p <+: q := fun hc => absurd hc.length_le (by omega)

theorem self_mem_path_inits {p : Path} (hne : p ≠ []) : p ∈ path_inits p :=
  mem_path_inits.mpr ⟨hne, List.prefix_rfl⟩

theorem existsB_makedirs_of {fs : FS} {p q : Path}
    (h : fs.existsB q = true) : (fs.makedirs p).existsB q = true := by
  unfold FS.existsB FS.isDirB FS.isFileB at h ⊢
  rw [makedirs_files]
  rcases Bool.or_eq_true _ _ |>.mp h with hd | hf
  · refine Bool.or_eq_true _ _ |>.mpr (Or.inl ?_)
    exact decide_eq_true (mem_makedirs_dirs.mpr (Or.inl (of_decide_eq_true hd)))
  · exact Bool.or_eq_true _ _ |>.mpr (Or.inr hf)

theorem isFileB_writeFile_of {fs : FS} {p q : Path} {c0 : Content}
    (h : fs.isFileB q = true) : (fs.writeFile p c0).isFileB q = true := by
  unfold FS.isFileB at h ⊢
  rcases List.any_eq_true.mp h with ⟨e, he, hpe⟩
  have heq : e.1 = q := of_decide_eq_true hpe
  unfold FS.writeFile
  split
  · apply List.any_eq_true.mpr
    by_cases hqp : q = p
    · refine ⟨(p, c0), List.mem_map.mpr ⟨e, he, by rw [if_pos (heq.trans hqp)]⟩, ?_⟩
      simp [hqp]
    · refine ⟨e, List.mem_map.mpr ⟨e, he, by rw [if_neg (by rw [heq]; exact hqp)]⟩, hpe⟩
  · exact List.any_eq_true.mpr ⟨e, List.mem_append.mpr (Or.inl he), hpe⟩

theorem existsB_writeFile_of {fs : FS} {p q : Path} {c0 : Content}
    (h : fs.existsB q = true) : (fs.writeFile p c0).existsB q = true := by
  unfold FS.existsB at h ⊢
  rcases Bool.or_eq_true _ _ |>.mp h with hd | hf
  · refine Bool.or_eq_true _ _ |>.mpr (Or.inl ?_)
    unfold FS.isDirB at hd ⊢
    unfold FS.writeFile
    split <;> exact hd
  · exact Bool.or_eq_true _ _ |>.mpr (Or.inr (isFileB_writeFile_of hf))

theorem existsB_merge_entries_of {dest q : Path} {es : List (Path × Content)} :
    ∀ {fs : FS}, fs.existsB q = true → (merge_entries fs dest es).existsB q = true := by
  induction es with
  | nil => intro fs h; exact h
  | cons e rest ih =>
    intro fs h
    rcases e with ⟨rel, c⟩
    exact ih (existsB_writeFile_of (existsB_makedirs_of h))

theorem extract_preserves_existsB {fs fs1 : FS} {a pd q : Path} {r : Bool}
    (hx : extract_archive fs a pd = .ok (fs1, r))
    (h : fs.existsB q = true) : fs1.existsB q = true := by
  unfold extract_archive at hx
  split at hx
  · unfold zip_extract at hx
    split at hx
    · cases hx
      exact existsB_merge_entries_of (existsB_makedirs_of h)
    · cases hx
  · split at hx
    · unfold tar_extract at hx
      split at hx
      · cases hx
        exact existsB_merge_entries_of (existsB_makedirs_of h)
      · cases hx
    · cases hx
      exact existsB_makedirs_of h

theorem existsB_removeSubtree_of {fs : FS} {p q : Path} (hnp : ¬ p <+: q)
    (h : fs.existsB q = true) : (fs.removeSubtree p).existsB q = true := by
  unfold FS.existsB FS.isDirB FS.isFileB at h ⊢
  rcases Bool.or_eq_true _ _ |>.mp h with hd | hf
  · refine Bool.or_eq_true _ _ |>.mpr (Or.inl ?_)
    exact decide_eq_true (mem_removeSubtree_dirs.mpr ⟨of_decide_eq_true hd, hnp⟩)
  · refine Bool.or_eq_true _ _ |>.mpr (Or.inr ?_)
    rcases List.any_eq_true.mp hf with ⟨e, he, hpe⟩
    have heq : e.1 = q := of_decide_eq_true hpe
    exact List.any_eq_true.mpr
      ⟨e, mem_removeSubtree_files.mpr ⟨he, by rw [heq]; exact hnp⟩, hpe⟩

theorem existsB_move_of {fs fs' : FS} {src dst q : Path}
    (hmv : fs.move src dst = .ok fs') (hns : ¬ src <+: q)
    (h : fs.existsB q = true) : fs'.existsB q = true := by
  unfold FS.move at hmv
  split at hmv
  · cases hmv
    unfold FS.existsB FS.isDirB FS.isFileB at h ⊢
    rcases Bool.or_eq_true _ _ |>.mp h with hd | hf
    · refine Bool.or_eq_true _ _ |>.mpr (Or.inl ?_)
      refine decide_eq_true (List.mem_map.mpr ⟨q, of_decide_eq_true hd, ?_⟩)
      exact relocate_miss hns
    · refine Bool.or_eq_true _ _ |>.mpr (Or.inr ?_)
      rcases List.any_eq_true.mp hf with ⟨e, he, hpe⟩
      have heq : e.1 = q := of_decide_eq_true hpe
      refine List.any_eq_true.mpr ⟨(relocate src (dst ++ [basename src]) e.1, e.2),
        List.mem_map.mpr ⟨e, he, rfl⟩, ?_⟩
      rw [heq, relocate_miss hns]
      exact decide_eq_true rfl
  · cases hmv

theorem process_one_preserves_pfx {pfxP pd : Path} {fs fs' : FS} {a : Path}
    {x y : String} (hpd : pd = pfxP ++ [x, y])
    (h : process_one pfxP pd fs a = .ok fs')
    (hex : fs.existsB pfxP = true) : fs'.existsB pfxP = true := by
  unfold process_one at h
  rcases hx : extract_archive fs a pd with e | ⟨fs1, recog⟩ <;> rw [hx] at h
  · cases h
  · have hex1 : fs1.existsB pfxP = true := extract_preserves_existsB hx hex
    rcases recog with _ | _
    · cases h
      exact hex1
    · simp only [if_true] at h
      have hlt : pfxP.length <
          (pfxP ++ [pyOr (read_api_version fs1 (pd ++ [comp_of a])) "unknown"]).length := by
        simp
      have hnt := not_prefix_of_length_lt hlt
      have hns : ¬ (pd ++ [comp_of a]) <+: pfxP := by
        refine not_prefix_of_length_lt ?_
        rw [hpd]
        simp only [List.length_append, List.length_cons, List.length_nil]
        omega
      split at h
      · cases h
      · rename_i fs2 heq2
        split at h
        · cases h
        · rename_i fs4 hmv
          cases h
          have hex2 : fs2.existsB pfxP = true := by
            by_cases hct : fs1.existsB
                (pfxP ++ [pyOr (read_api_version fs1 (pd ++ [comp_of a])) "unknown"]) = true
            · rw [if_pos hct] at heq2
              unfold FS.rmtree at heq2
              split at heq2
              · cases heq2
                exact existsB_removeSubtree_of hnt hex1
              · cases heq2
            · rw [if_neg hct] at heq2
              cases heq2
              exact hex1
          exact existsB_move_of hmv hns (existsB_makedirs_of hex2)

theorem process_archives_preserves_pfx {pfxP pd : Path} {x y : String}
    (hpd : pd = pfxP ++ [x, y]) :
    ∀ {as : List Path} {fs fs' : FS},
      process_archives pfxP pd fs as = .ok fs' →
      fs.existsB pfxP = true → fs'.existsB pfxP = true := by
  intro as
  induction as with
  | nil =>
    intro fs fs' h hex
    rw [process_archives_nil] at h
    cases h
    exact hex
  | cons a rest ih =>
    intro fs fs' h hex
    rw [process_archives_cons] at h
    rcases hp : process_one pfxP pd fs a with e | fsm <;> rw [hp] at h
    · cases h
    · exact ih h (process_one_preserves_pfx hpd hp hex)

theorem wvm_existsB_of {fs : FS} {p q : Path} (h : fs.existsB q = true) :
    (write_version_marker fs p).existsB q = true := by
  unfold write_version_marker
  split
  · exact existsB_writeFile_of h
  · exact h

theorem staged_existsB_pfx (cfg : Config) (fs0 : FS) (hne : cfg.pfx ≠ []) :
    (staged cfg fs0).existsB cfg.pfx = true := by
  unfold staged
  apply wvm_existsB_of
  by_cases hex0 : fs0.existsB cfg.pfx = true
  · rw [if_pos hex0]
    exact hex0
  · rw [if_neg hex0]
    unfold FS.existsB FS.isDirB
    exact Bool.or_eq_true _ _ |>.mpr
      (Or.inl (decide_eq_true (mem_makedirs_dirs.mpr (Or.inr (self_mem_path_inits hne)))))

/-- C9: a second run of the pipeline on the final state of a successful
run succeeds, finds the staging directory gone, and returns a state with
the same directories and the same files except possibly the version
marker (which it best-effort rewrites): the version-keyed layout is
independent of the run count. -/
theorem C9_idempotent (cfg : Config) (fs0 fs' : FS)
    (hne : cfg.pfx ≠ [])
    (h : start cfg fs0 = .ok fs') :
    ∃ fs'', start cfg fs' = .ok fs''
      ∧ fs''.dirs = fs'.dirs
      ∧ (∀ q c, q ≠ cfg.pfx ++ [marker_name] →
          (((q, c) ∈ fs''.files) ↔ (q, c) ∈ fs'.files)) := by
  have hpd : platform_dir cfg = cfg.pfx ++ ["ohos-sdk", platform_dir_name cfg.platform] := by
    unfold platform_dir sdk_dir
    rw [List.append_assoc]
    rfl
  have hA : fs'.existsB cfg.pfx = true := by
    unfold start at h
    by_cases hdir : (staged cfg fs0).isDirB (sdk_dir cfg) = true
    · rw [if_pos hdir] at h
      rcases hp : process_archives cfg.pfx (platform_dir cfg) (staged cfg fs0)
          (wanted_archives cfg (staged cfg fs0)) with e | fs3 <;> rw [hp] at h
      · cases h
      · cases h
        have h3 : fs3.existsB cfg.pfx = true :=
          process_archives_preserves_pfx hpd hp (staged_existsB_pfx cfg fs0 hne)
        unfold FS.rmtree_ignore
        split
        · refine existsB_removeSubtree_of (not_prefix_of_length_lt ?_) h3
          unfold sdk_dir
          simp
        · exact h3
    · rw [if_neg hdir] at h
      cases h
      exact staged_existsB_pfx cfg fs0 hne
  have hB : fs'.isDirB (sdk_dir cfg) = false := sdk_dir_gone_of_ok h
  have hstaged : staged cfg fs' = write_version_marker fs' cfg.pfx := by
    unfold staged
    rw [if_pos hA]
  have hcond : (staged cfg fs').isDirB (sdk_dir cfg) = false := by
    rw [hstaged]
    unfold FS.isDirB
    rw [wvm_dirs]
    exact hB
  refine ⟨write_version_marker fs' cfg.pfx, ?_, wvm_dirs fs' cfg.pfx,
    fun q c hq => wvm_files_ne hq⟩
  unfold start
  rw [if_neg (by rw [hcond]; simp), hstaged]

/-- Witness for C9 at the concrete run: rerunning on the final state of
the successful run returns a state with the same layout. -/
theorem C9_idempotent_witness :
    cfgRun.pfx ≠ [] ∧ start cfgRun fsRun = .ok runResult
    ∧ (∃ fs'', start cfgRun runResult = .ok fs''
        ∧ fs''.dirs = runResult.dirs
        ∧ (∀ q c, q ≠ cfgRun.pfx ++ [marker_name] →
            (((q, c) ∈ fs''.files) ↔ (q, c) ∈ runResult.files))) :=
  ⟨by decide, rfl, C9_idempotent cfgRun fsRun runResult (by decide) rfl⟩

end Ohos
